import Mathlib

/-!
Verification of the neutron-star structure notebook.

The notebook solves the TOV equations of general-relativistic hydrostatic
equilibrium.  We embed its pure numerical functions over the real numbers:

* `dp_dr`, `dm_dr`, `tov_equations` — the TOV right-hand side;
* `eos_p_simple`, `eos_rho_rest_simple`, `eos_rho_simple` — the simple
  cubic-polytrope equation of state (the notebook's global constants
  `rho_nuclear_v` and `p_nuclear_v` become explicit parameters `rhoN`, `pN`);
* `pSeg`, `rrSeg`, `eSeg` and `eos_p_polytropic`,
  `eos_rho_rest_polytropic`, `eos_rho_polytropic` — the four-segment
  piecewise-polytrope EOS (the globals `gamma0`, `rho0_v`, `rho1_v`,
  `rho2_v` become parameters `g0`, `rho0`, `rho1`, `rho2`; the
  `np.piecewise` branch lambdas become the named segment laws);
* `tovLoop`, `solve_tov_equations` — the integration driver loop.  The
  external adaptive solver (`scipy.integrate.ode` with `dopri5`) is
  abstracted as a finite trace of integrator step results `IStep`,
  each recording the solver position `t`, the returned state `(p, m)`
  and the solver's success flag after the step, exactly the data the
  loop reads from the solver object;
* `sampleLoop`, `sample_eos_mass_radius` — the mass–radius sweep.  The
  inner call to the TOV solver is abstracted as an oracle
  `solve : ℝ → ℝ × ℝ` mapping a central pressure to the pair
  `(r[-1], m[-1])` of last radius and last mass, and the unit conversion
  `m_units.si / const.M_sun` becomes the factor `mconv`; the unbounded
  `while` loop gets an explicit fuel argument;
* `rhoIter` — the sequence of central densities tested by the sweep's
  loop condition, iterating the update
  `rho_central += rho_central * rho_central_log_step`.
-/

noncomputable section

open Real

/-- `dp_dr(r, p, m, rho)` from the notebook: `0` when `r <= 0`, otherwise
`-(rho + p) * (m + 4 * pi * r**3 * p) / r / (r - 2 * m)`. -/
def dp_dr (r p m rho : ℝ) : ℝ :=
  if r ≤ 0 then 0
  else -(rho + p) * (m + 4 * π * r ^ 3 * p) / r / (r - 2 * m)

/-- `dm_dr(r, p, m, rho)` from the notebook: `4 * pi * r**2 * rho`. -/
def dm_dr (r p m rho : ℝ) : ℝ := 4 * π * r ^ 2 * rho

/-- `tov_equations(r, p_and_m, eos_rho)` from the notebook: evaluates the EOS
once on the pressure component and returns the derivative pair. -/
def tov_equations (r : ℝ) (p_and_m : ℝ × ℝ) (eos_rho : ℝ → ℝ) : ℝ × ℝ :=
  let rho := eos_rho p_and_m.1
  (dp_dr r p_and_m.1 p_and_m.2 rho, dm_dr r p_and_m.1 p_and_m.2 rho)

/-- `eos_p_simple(rho_rest)`: `(rho_rest / rho_nuclear_v)**3 * p_nuclear_v`.
The globals `rho_nuclear_v`, `p_nuclear_v` are the parameters `rhoN`, `pN`. -/
def eos_p_simple (rhoN pN rho_rest : ℝ) : ℝ := (rho_rest / rhoN) ^ 3 * pN

/-- `eos_rho_rest_simple(p)`: `(p / p_nuclear_v)**(1/3) * rho_nuclear_v`
(real power). -/
def eos_rho_rest_simple (rhoN pN p : ℝ) : ℝ := (p / pN) ^ ((1 : ℝ) / 3) * rhoN

/-- `eos_rho_simple(p)`: `eos_rho_rest_simple(p) + p / 2`. -/
def eos_rho_simple (rhoN pN p : ℝ) : ℝ := eos_rho_rest_simple rhoN pN p + p / 2

/-- One pressure-segment law of the piecewise polytrope:
`lambda rho: K * (rho / B)**g`, the shape of every branch lambda passed to
`np.piecewise` in `eos_p_polytropic`. -/
def pSeg (K B g rho : ℝ) : ℝ := K * (rho / B) ^ g

/-- One rest-density-segment law of the piecewise polytrope:
`lambda p: (p / P)**(1/g) * B`, the shape of every branch lambda passed to
`np.piecewise` in `eos_rho_rest_polytropic`. -/
def rrSeg (P B g p : ℝ) : ℝ := (p / P) ^ (1 / g) * B

/-- `eos_p_polytropic(rho, p1, gamma1, gamma2, gamma3)` with the globals
`gamma0, rho0_v, rho1_v, rho2_v` as parameters `g0, rho0, rho1, rho2`.
The four mutually exclusive, exhaustive `np.piecewise` conditions become
nested conditionals. -/
def eos_p_polytropic (g0 rho0 rho1 rho2 rho p1 g1 g2 g3 : ℝ) : ℝ :=
  let p0 := p1 * (rho0 / rho1) ^ g1
  let p2 := p1 * (rho2 / rho1) ^ g2
  if rho < rho0 then pSeg p0 rho0 g0 rho
  else if rho < rho1 then pSeg p1 rho1 g1 rho
  else if rho < rho2 then pSeg p1 rho1 g2 rho
  else pSeg p2 rho2 g3 rho

/-- `eos_rho_rest_polytropic(p, p1, gamma1, gamma2, gamma3)` with the globals
as parameters, branching on the pressure against the derived boundary
pressures `p0 = p1*(rho0_v/rho1_v)**gamma1` and `p2 = p1*(rho2_v/rho1_v)**gamma2`. -/
def eos_rho_rest_polytropic (g0 rho0 rho1 rho2 p p1 g1 g2 g3 : ℝ) : ℝ :=
  let p0 := p1 * (rho0 / rho1) ^ g1
  let p2 := p1 * (rho2 / rho1) ^ g2
  if p < p0 then rrSeg p0 rho0 g0 p
  else if p < p1 then rrSeg p1 rho1 g1 p
  else if p < p2 then rrSeg p1 rho1 g2 p
  else rrSeg p2 rho2 g3 p

/-- One energy-density-segment law of the piecewise polytrope:
`lambda p: C * rho_rest(p) + p / (g - 1)` where `rho_rest` is the full
piecewise inverse, the shape of every branch lambda passed to `np.piecewise`
in `eos_rho_polytropic`. -/
def eSeg (g0 rho0 rho1 rho2 p1 g1 g2 g3 C g p : ℝ) : ℝ :=
  C * eos_rho_rest_polytropic g0 rho0 rho1 rho2 p p1 g1 g2 g3 + p / (g - 1)

/-- `eos_rho_polytropic(p, p1, gamma1, gamma2, gamma3)` with the globals as
parameters: the running constants `C0..C3` accumulate across the segment
boundaries exactly as in the notebook. -/
def eos_rho_polytropic (g0 rho0 rho1 rho2 p p1 g1 g2 g3 : ℝ) : ℝ :=
  let p0 := p1 * (rho0 / rho1) ^ g1
  let p2 := p1 * (rho2 / rho1) ^ g2
  let C0 : ℝ := 1
  let C1 := C0 + p0 / rho0 * (1 / (g0 - 1) - 1 / (g1 - 1))
  let C2 := C1 + p1 / rho1 * (1 / (g1 - 1) - 1 / (g2 - 1))
  let C3 := C2 + p2 / rho2 * (1 / (g2 - 1) - 1 / (g3 - 1))
  if p < p0 then eSeg g0 rho0 rho1 rho2 p1 g1 g2 g3 C0 g0 p
  else if p < p1 then eSeg g0 rho0 rho1 rho2 p1 g1 g2 g3 C1 g1 p
  else if p < p2 then eSeg g0 rho0 rho1 rho2 p1 g1 g2 g3 C2 g2 p
  else eSeg g0 rho0 rho1 rho2 p1 g1 g2 g3 C3 g3 p

/-- Validity of the piecewise-polytrope parameters: positive, strictly
increasing segment boundaries, positive anchor pressure, all adiabatic
indices above 1 (`gamma0 = 1.33` in the notebook satisfies this). -/
structure PolyValid (g0 rho0 rho1 rho2 p1 g1 g2 g3 : ℝ) : Prop where
  h0 : 0 < rho0
  h01 : rho0 < rho1
  h12 : rho1 < rho2
  hp1 : 0 < p1
  hg0 : 1 < g0
  hg1 : 1 < g1
  hg2 : 1 < g2
  hg3 : 1 < g3

/-- One result of a call `integrator.integrate(integrator.t + step)` on the
external adaptive solver: the solver position `t`, the returned state
`(p, m)`, and the value of `integrator.successful()` after the call. -/
structure IStep where
  t : ℝ
  p : ℝ
  m : ℝ
  ok : Bool

/-- The `while integrator.successful():` loop body of `solve_tov_equations`:
consume the next integrator result, append it to the paths, break when the
pressure is `<= 0`, and re-enter the loop only while the solver reports
success.  A finite trace plays the role of the external solver. -/
def tovLoop : List IStep → List ℝ × List (ℝ × ℝ) → List ℝ × List (ℝ × ℝ)
  | [], acc => acc
  | s :: rest, (rs, ys) =>
    let rs' := rs ++ [s.t]
    let ys' := ys ++ [(s.p, s.m)]
    if s.p ≤ 0 then (rs', ys')
    else if s.ok then tovLoop rest (rs', ys') else (rs', ys')

/-- `solve_tov_equations(p_central, eos_rho, step)`: starts from
`r_path = [0]`, `p_and_m_path = [[p_central, 0]]` and runs the stepping loop.
The solver (which already closes over `eos_rho` and `step`) is abstracted as
the trace of its step results; the returned pair is `(r_path, p_and_m_path)`. -/
def solve_tov_equations (p_central : ℝ) (trace : List IStep) :
    List ℝ × List (ℝ × ℝ) :=
  tovLoop trace ([0], [(p_central, 0)])

/-- The `while rho_central < rho_central_stop:` loop of
`sample_eos_mass_radius`, with explicit fuel.  `eos_p` is the EOS pressure
function, `solve` abstracts `solve_tov_equations` as the map from `p_central`
to `(r[-1], m[-1])`, `mconv` is the factor `m_units.si / const.M_sun`, and
the accumulator rows are `(rho_central, M, R)`. -/
def sampleLoop (eos_p : ℝ → ℝ) (solve : ℝ → ℝ × ℝ) (mconv step stop : ℝ)
    (stopAtMax : Bool) :
    ℕ → ℝ → List (ℝ × ℝ × ℝ) → List (ℝ × ℝ × ℝ)
  | 0, _, acc => acc
  | fuel + 1, rho, acc =>
    if rho < stop then
      let res := solve (eos_p rho)
      let R := res.1
      let M := res.2 * mconv
      if stopAtMax ∧ 0 < acc.length ∧ M < (acc.getLastD (0, 0, 0)).2.1 then acc
      else
        sampleLoop eos_p solve mconv step stop stopAtMax fuel
          (rho + rho * step) (acc ++ [(rho, M, R)])
    else acc

/-- `sample_eos_mass_radius(eos_p, eos_rho, rho_central_start,
rho_central_log_step, rho_central_stop, stop_at_maximum_mass)`: runs the
sweep loop from `rho_central_start` with an empty table. -/
def sample_eos_mass_radius (eos_p : ℝ → ℝ) (solve : ℝ → ℝ × ℝ)
    (mconv rho_central_start rho_central_log_step rho_central_stop : ℝ)
    (stop_at_maximum_mass : Bool) (fuel : ℕ) : List (ℝ × ℝ × ℝ) :=
  sampleLoop eos_p solve mconv rho_central_log_step rho_central_stop
    stop_at_maximum_mass fuel rho_central_start []

/-- The final two recorded rows of a mass–radius table never show a decrease
in the mass column (rows are `(rho_central, M, R)`). -/
def lastPairMono (xs : List (ℝ × ℝ × ℝ)) : Prop :=
  match xs.reverse with
  | b :: a :: _ => a.2.1 ≤ b.2.1
  | _ => True

/-- The sequence of values taken by `rho_central` in the sweep loop of
`sample_eos_mass_radius`: iterates the update
`rho_central += rho_central * rho_central_log_step`. -/
def rhoIter (start step : ℝ) : ℕ → ℝ
  | 0 => start
  | n + 1 => rhoIter start step n + rhoIter start step n * step

end

/-- A single polytrope segment inverts exactly: applying the segment
rest-density law to the segment pressure law recovers the density. -/
theorem seg_roundtrip (P B g x : ℝ) (hP : P ≠ 0) (hB : 0 < B) (hx : 0 ≤ x)
    (hg : g ≠ 0) : rrSeg P B g (pSeg P B g x) = x := by
  rw [pSeg, rrSeg, mul_div_cancel_left₀ _ hP,
    ← Real.rpow_mul (div_nonneg hx hB.le)]
  have hone : g * (1 / g) = 1 := by field_simp
  rw [hone, Real.rpow_one, div_mul_cancel₀ _ (ne_of_gt hB)]

/-- The derived crust boundary pressure `p0 = p1*(rho0/rho1)**gamma1` is
positive for valid parameters. -/
theorem p0v_pos (g0 rho0 rho1 rho2 p1 g1 g2 g3 : ℝ)
    (hv : PolyValid g0 rho0 rho1 rho2 p1 g1 g2 g3) :
    0 < p1 * (rho0 / rho1) ^ g1 :=
  mul_pos hv.hp1
    (Real.rpow_pos_of_pos (div_pos hv.h0 (lt_trans hv.h0 hv.h01)) g1)

/-- The derived boundary pressures are ordered: `p0 < p1`. -/
theorem p0v_lt_p1 (g0 rho0 rho1 rho2 p1 g1 g2 g3 : ℝ)
    (hv : PolyValid g0 rho0 rho1 rho2 p1 g1 g2 g3) :
    p1 * (rho0 / rho1) ^ g1 < p1 := by
  have hr1 : (0 : ℝ) < rho1 := lt_trans hv.h0 hv.h01
  have hlt : (rho0 / rho1) ^ g1 < 1 :=
    Real.rpow_lt_one (div_nonneg hv.h0.le hr1.le) ((div_lt_one hr1).2 hv.h01)
      (lt_trans one_pos hv.hg1)
  simpa using mul_lt_of_lt_one_right hv.hp1 hlt

/-- The derived boundary pressures are ordered: `p1 < p2`. -/
theorem p1_lt_p2v (g0 rho0 rho1 rho2 p1 g1 g2 g3 : ℝ)
    (hv : PolyValid g0 rho0 rho1 rho2 p1 g1 g2 g3) :
    p1 < p1 * (rho2 / rho1) ^ g2 := by
  have hr1 : (0 : ℝ) < rho1 := lt_trans hv.h0 hv.h01
  have hgt : 1 < rho2 / rho1 := (one_lt_div hr1).2 hv.h12
  have h1 : (1 : ℝ) < (rho2 / rho1) ^ g2 := by
    have := Real.rpow_lt_rpow_of_exponent_lt hgt (lt_trans one_pos hv.hg2)
    simpa using this
  simpa using lt_mul_of_one_lt_right hv.hp1 h1

/-- Round trip of the piecewise polytrope: the rest-density inverse applied
to the pressure law recovers every nonnegative density, for valid
parameters. -/
theorem poly_roundtrip (g0 rho0 rho1 rho2 p1 g1 g2 g3 : ℝ)
    (hv : PolyValid g0 rho0 rho1 rho2 p1 g1 g2 g3) (x : ℝ) (hx : 0 ≤ x) :
    eos_rho_rest_polytropic g0 rho0 rho1 rho2
      (eos_p_polytropic g0 rho0 rho1 rho2 x p1 g1 g2 g3) p1 g1 g2 g3 = x := by
  have hr1 : (0 : ℝ) < rho1 := lt_trans hv.h0 hv.h01
  have hr2 : (0 : ℝ) < rho2 := lt_trans hr1 hv.h12
  have hg0 : (0 : ℝ) < g0 := lt_trans one_pos hv.hg0
  have hg1 : (0 : ℝ) < g1 := lt_trans one_pos hv.hg1
  have hg2 : (0 : ℝ) < g2 := lt_trans one_pos hv.hg2
  have hg3 : (0 : ℝ) < g3 := lt_trans one_pos hv.hg3
  have hp0 : 0 < p1 * (rho0 / rho1) ^ g1 := p0v_pos _ _ _ _ _ _ _ _ hv
  have h01p : p1 * (rho0 / rho1) ^ g1 < p1 := p0v_lt_p1 _ _ _ _ _ _ _ _ hv
  have h12p : p1 < p1 * (rho2 / rho1) ^ g2 := p1_lt_p2v _ _ _ _ _ _ _ _ hv
  simp only [eos_p_polytropic, eos_rho_rest_polytropic]
  rcases lt_or_le x rho0 with hx0 | hx0
  · -- crust segment: rho < rho0
    rw [if_pos hx0]
    have hplt : pSeg (p1 * (rho0 / rho1) ^ g1) rho0 g0 x < p1 * (rho0 / rho1) ^ g1 := by
      have hlt : (x / rho0) ^ g0 < 1 :=
        Real.rpow_lt_one (div_nonneg hx hv.h0.le) ((div_lt_one hv.h0).2 hx0) hg0
      simpa [pSeg] using mul_lt_of_lt_one_right hp0 hlt
    rw [if_pos hplt]
    exact seg_roundtrip _ _ _ _ (ne_of_gt hp0) hv.h0 hx (ne_of_gt hg0)
  rcases lt_or_le x rho1 with hx1 | hx1
  · -- first core segment: rho0 <= rho < rho1
    rw [if_neg (not_lt.mpr hx0), if_pos hx1]
    have hge : p1 * (rho0 / rho1) ^ g1 ≤ pSeg p1 rho1 g1 x := by
      have h1 : (rho0 / rho1) ^ g1 ≤ (x / rho1) ^ g1 :=
        Real.rpow_le_rpow (div_nonneg hv.h0.le hr1.le)
          ((div_le_div_iff_of_pos_right hr1).2 hx0) hg1.le
      simpa [pSeg] using mul_le_mul_of_nonneg_left h1 hv.hp1.le
    have hplt : pSeg p1 rho1 g1 x < p1 := by
      have hlt : (x / rho1) ^ g1 < 1 :=
        Real.rpow_lt_one (div_nonneg hx hr1.le) ((div_lt_one hr1).2 hx1) hg1
      simpa [pSeg] using mul_lt_of_lt_one_right hv.hp1 hlt
    rw [if_neg (not_lt.mpr hge), if_pos hplt]
    exact seg_roundtrip _ _ _ _ (ne_of_gt hv.hp1) hr1 hx (ne_of_gt hg1)
  rcases lt_or_le x rho2 with hx2 | hx2
  · -- second core segment: rho1 <= rho < rho2
    rw [if_neg (not_lt.mpr hx0), if_neg (not_lt.mpr hx1), if_pos hx2]
    have hge : p1 ≤ pSeg p1 rho1 g2 x := by
      have h1 : (1 : ℝ) ≤ (x / rho1) ^ g2 := by
        have := Real.rpow_le_rpow (by norm_num : (0 : ℝ) ≤ 1)
          ((one_le_div hr1).2 hx1) hg2.le
        simpa using this
      simpa [pSeg] using le_mul_of_one_le_right hv.hp1.le h1
    have hplt : pSeg p1 rho1 g2 x < p1 * (rho2 / rho1) ^ g2 := by
      have h1 : (x / rho1) ^ g2 < (rho2 / rho1) ^ g2 :=
        Real.rpow_lt_rpow (div_nonneg hx hr1.le) ((div_lt_div_iff_of_pos_right hr1).2 hx2)
          hg2
      simpa [pSeg] using mul_lt_mul_of_pos_left h1 hv.hp1
    rw [if_neg (not_lt.mpr (le_trans h01p.le hge)),
      if_neg (not_lt.mpr hge), if_pos hplt]
    exact seg_roundtrip _ _ _ _ (ne_of_gt hv.hp1) hr1 hx (ne_of_gt hg2)
  · -- third core segment: rho >= rho2
    rw [if_neg (not_lt.mpr hx0), if_neg (not_lt.mpr hx1),
      if_neg (not_lt.mpr hx2)]
    have hp2 : 0 < p1 * (rho2 / rho1) ^ g2 := lt_trans hv.hp1 h12p
    have hge : p1 * (rho2 / rho1) ^ g2 ≤ pSeg (p1 * (rho2 / rho1) ^ g2) rho2 g3 x := by
      have h1 : (1 : ℝ) ≤ (x / rho2) ^ g3 := by
        have := Real.rpow_le_rpow (by norm_num : (0 : ℝ) ≤ 1)
          ((one_le_div hr2).2 hx2) hg3.le
        simpa using this
      simpa [pSeg] using le_mul_of_one_le_right hp2.le h1
    rw [if_neg (not_lt.mpr (le_trans (le_trans h01p.le h12p.le) hge)),
      if_neg (not_lt.mpr (le_trans h12p.le hge)), if_neg (not_lt.mpr hge)]
    exact seg_roundtrip _ _ _ _ (ne_of_gt hp2) hr2 hx (ne_of_gt hg3)

/-- Round trip of the simple polytrope: the cube-root inverse applied to the
cubic pressure law recovers every nonnegative density. -/
theorem simple_roundtrip (rhoN pN x : ℝ) (hN : 0 < rhoN) (hpN : 0 < pN)
    (hx : 0 ≤ x) : eos_rho_rest_simple rhoN pN (eos_p_simple rhoN pN x) = x := by
  rw [eos_p_simple, eos_rho_rest_simple, mul_div_cancel_right₀ _ (ne_of_gt hpN),
    ← Real.rpow_natCast (x / rhoN) 3, ← Real.rpow_mul (div_nonneg hx hN.le)]
  norm_num
  rw [div_mul_cancel₀ _ (ne_of_gt hN)]

/-- Claim C2: for every rest density `x >= 0`,
`rest_density_of_pressure(pressure_of_rest_density(x)) = x` exactly (the
spec asks it only up to numerical tolerance), both for the Simple Polytrope
EOS and for the Piecewise Polytrope EOS with any valid parameters
(`p1 > 0`, all `Gamma_i > 1`, boundaries `0 < rho0 < rho1 < rho2`). -/
theorem eos_roundtrip (rhoN pN g0 rho0 rho1 rho2 p1 g1 g2 g3 : ℝ)
    (hN : 0 < rhoN) (hpN : 0 < pN)
    (hv : PolyValid g0 rho0 rho1 rho2 p1 g1 g2 g3) :
    (∀ x, 0 ≤ x → eos_rho_rest_simple rhoN pN (eos_p_simple rhoN pN x) = x) ∧
    (∀ x, 0 ≤ x →
      eos_rho_rest_polytropic g0 rho0 rho1 rho2
        (eos_p_polytropic g0 rho0 rho1 rho2 x p1 g1 g2 g3) p1 g1 g2 g3 = x) :=
  ⟨fun x hx => simple_roundtrip rhoN pN x hN hpN hx,
    fun x hx => poly_roundtrip g0 rho0 rho1 rho2 p1 g1 g2 g3 hv x hx⟩

/-- Witness for C2 at concrete parameters (`rhoN = pN = 1`;
`g0 = g1 = g2 = g3 = 2`, `rho0 = 1`, `rho1 = 2`, `rho2 = 4`, `p1 = 4`) on
densities taken from each side of the segment structure. -/
theorem eos_roundtrip_witness :
    eos_rho_rest_simple 1 1 (eos_p_simple 1 1 5) = 5 ∧
    eos_rho_rest_polytropic 2 1 2 4 (eos_p_polytropic 2 1 2 4 3 4 2 2 2) 4 2 2 2 = 3 := by
  have h := eos_roundtrip 1 1 2 1 2 4 4 2 2 2 (by norm_num) (by norm_num)
    ⟨by norm_num, by norm_num, by norm_num, by norm_num, by norm_num,
      by norm_num, by norm_num, by norm_num⟩
  exact ⟨h.1 5 (by norm_num), h.2 3 (by norm_num)⟩

/-- The piecewise rest-density inverse evaluated at the derived crust
boundary pressure `p0` yields the boundary density `rho0`. -/
theorem rr_at_p0 (g0 rho0 rho1 rho2 p1 g1 g2 g3 : ℝ)
    (hv : PolyValid g0 rho0 rho1 rho2 p1 g1 g2 g3) :
    eos_rho_rest_polytropic g0 rho0 rho1 rho2
      (p1 * (rho0 / rho1) ^ g1) p1 g1 g2 g3 = rho0 := by
  have hr1 : (0 : ℝ) < rho1 := lt_trans hv.h0 hv.h01
  have h01p := p0v_lt_p1 _ _ _ _ _ _ _ _ hv
  simp only [eos_rho_rest_polytropic]
  rw [if_neg (lt_irrefl _), if_pos h01p]
  have hrw : p1 * (rho0 / rho1) ^ g1 = pSeg p1 rho1 g1 rho0 := rfl
  rw [hrw]
  exact seg_roundtrip p1 rho1 g1 rho0 (ne_of_gt hv.hp1) hr1 hv.h0.le
    (ne_of_gt (lt_trans one_pos hv.hg1))

/-- The piecewise rest-density inverse evaluated at the anchor pressure `p1`
yields the boundary density `rho1`. -/
theorem rr_at_p1 (g0 rho0 rho1 rho2 p1 g1 g2 g3 : ℝ)
    (hv : PolyValid g0 rho0 rho1 rho2 p1 g1 g2 g3) :
    eos_rho_rest_polytropic g0 rho0 rho1 rho2 p1 p1 g1 g2 g3 = rho1 := by
  have h01p := p0v_lt_p1 _ _ _ _ _ _ _ _ hv
  have h12p := p1_lt_p2v _ _ _ _ _ _ _ _ hv
  simp only [eos_rho_rest_polytropic]
  rw [if_neg (not_lt.mpr h01p.le), if_neg (lt_irrefl _), if_pos h12p, rrSeg,
    div_self (ne_of_gt hv.hp1), Real.one_rpow, one_mul]

/-- The piecewise rest-density inverse evaluated at the derived boundary
pressure `p2` yields the boundary density `rho2`. -/
theorem rr_at_p2 (g0 rho0 rho1 rho2 p1 g1 g2 g3 : ℝ)
    (hv : PolyValid g0 rho0 rho1 rho2 p1 g1 g2 g3) :
    eos_rho_rest_polytropic g0 rho0 rho1 rho2
      (p1 * (rho2 / rho1) ^ g2) p1 g1 g2 g3 = rho2 := by
  have h01p := p0v_lt_p1 _ _ _ _ _ _ _ _ hv
  have h12p := p1_lt_p2v _ _ _ _ _ _ _ _ hv
  have hp2 : (0 : ℝ) < p1 * (rho2 / rho1) ^ g2 := lt_trans hv.hp1 h12p
  simp only [eos_rho_rest_polytropic]
  rw [if_neg (not_lt.mpr (le_trans h01p.le h12p.le)),
    if_neg (not_lt.mpr h12p.le), if_neg (lt_irrefl _), rrSeg,
    div_self (ne_of_gt hp2), Real.one_rpow, one_mul]

/-- Claim C3: for the Piecewise Polytrope EOS with valid parameters
(`p1 > 0`, all `Gamma_i > 1`, `0 < rho0 < rho1 < rho2`), the pressure law
below each segment boundary and the law above it agree at the boundary
(densities `rho0, rho1, rho2`), and likewise the energy-density laws agree
at the corresponding boundary pressures `p0, p1, p2`, because the derived
constants `p0, p2` and the running constants `C1, C2, C3` are accumulated
as in the code. -/
theorem poly_continuity (g0 rho0 rho1 rho2 p1 g1 g2 g3 p0 p2 C1 C2 C3 : ℝ)
    (hv : PolyValid g0 rho0 rho1 rho2 p1 g1 g2 g3)
    (hp0 : p0 = p1 * (rho0 / rho1) ^ g1)
    (hp2 : p2 = p1 * (rho2 / rho1) ^ g2)
    (hC1 : C1 = 1 + p0 / rho0 * (1 / (g0 - 1) - 1 / (g1 - 1)))
    (hC2 : C2 = C1 + p1 / rho1 * (1 / (g1 - 1) - 1 / (g2 - 1)))
    (hC3 : C3 = C2 + p2 / rho2 * (1 / (g2 - 1) - 1 / (g3 - 1))) :
    (pSeg p0 rho0 g0 rho0 = pSeg p1 rho1 g1 rho0 ∧
     pSeg p1 rho1 g1 rho1 = pSeg p1 rho1 g2 rho1 ∧
     pSeg p1 rho1 g2 rho2 = pSeg p2 rho2 g3 rho2) ∧
    (eSeg g0 rho0 rho1 rho2 p1 g1 g2 g3 1 g0 p0 =
       eSeg g0 rho0 rho1 rho2 p1 g1 g2 g3 C1 g1 p0 ∧
     eSeg g0 rho0 rho1 rho2 p1 g1 g2 g3 C1 g1 p1 =
       eSeg g0 rho0 rho1 rho2 p1 g1 g2 g3 C2 g2 p1 ∧
     eSeg g0 rho0 rho1 rho2 p1 g1 g2 g3 C2 g2 p2 =
       eSeg g0 rho0 rho1 rho2 p1 g1 g2 g3 C3 g3 p2) := by
  have hr1 : (0 : ℝ) < rho1 := lt_trans hv.h0 hv.h01
  have hr2 : (0 : ℝ) < rho2 := lt_trans hr1 hv.h12
  have hg0 : g0 - 1 ≠ 0 := sub_ne_zero.mpr (ne_of_gt hv.hg0)
  have hg1 : g1 - 1 ≠ 0 := sub_ne_zero.mpr (ne_of_gt hv.hg1)
  have hg2 : g2 - 1 ≠ 0 := sub_ne_zero.mpr (ne_of_gt hv.hg2)
  have hg3 : g3 - 1 ≠ 0 := sub_ne_zero.mpr (ne_of_gt hv.hg3)
  subst hp0 hp2 hC1 hC2 hC3
  refine ⟨⟨?_, ?_, ?_⟩, ?_, ?_, ?_⟩
  · rw [pSeg, pSeg, div_self (ne_of_gt hv.h0), Real.one_rpow, mul_one]
  · simp [pSeg, div_self (ne_of_gt hr1)]
  · rw [pSeg, pSeg, div_self (ne_of_gt hr2), Real.one_rpow, mul_one]
  · rw [eSeg, eSeg, rr_at_p0 _ _ _ _ _ _ _ _ hv]
    field_simp [ne_of_gt hv.h0, hg0, hg1]
    ring
  · rw [eSeg, eSeg, rr_at_p1 _ _ _ _ _ _ _ _ hv]
    field_simp [ne_of_gt hr1, hg1, hg2]
    ring
  · rw [eSeg, eSeg, rr_at_p2 _ _ _ _ _ _ _ _ hv]
    field_simp [ne_of_gt hr2, hg2, hg3]
    ring

/-- Witness for C3 at the concrete valid parameters `g0 = g1 = g2 = g3 = 2`,
`rho0 = 1`, `rho1 = 2`, `rho2 = 4`, `p1 = 4`, with the derived constants
spelled out. -/
theorem poly_continuity_witness :
    (pSeg ((4 : ℝ) * (1 / 2) ^ (2 : ℝ)) 1 2 1 = pSeg 4 2 2 1 ∧
     pSeg (4 : ℝ) 2 2 2 = pSeg 4 2 2 2 ∧
     pSeg (4 : ℝ) 2 2 4 = pSeg ((4 : ℝ) * (4 / 2) ^ (2 : ℝ)) 4 2 4) ∧
    (eSeg 2 1 2 4 4 2 2 2 1 2 ((4 : ℝ) * (1 / 2) ^ (2 : ℝ)) =
       eSeg 2 1 2 4 4 2 2 2
         (1 + (4 : ℝ) * (1 / 2) ^ (2 : ℝ) / 1 * (1 / (2 - 1) - 1 / (2 - 1))) 2
         ((4 : ℝ) * (1 / 2) ^ (2 : ℝ)) ∧
     eSeg 2 1 2 4 4 2 2 2
         (1 + (4 : ℝ) * (1 / 2) ^ (2 : ℝ) / 1 * (1 / (2 - 1) - 1 / (2 - 1))) 2
         4 =
       eSeg 2 1 2 4 4 2 2 2
         (1 + (4 : ℝ) * (1 / 2) ^ (2 : ℝ) / 1 * (1 / (2 - 1) - 1 / (2 - 1)) +
           4 / 2 * (1 / (2 - 1) - 1 / (2 - 1))) 2 4 ∧
     eSeg 2 1 2 4 4 2 2 2
         (1 + (4 : ℝ) * (1 / 2) ^ (2 : ℝ) / 1 * (1 / (2 - 1) - 1 / (2 - 1)) +
           4 / 2 * (1 / (2 - 1) - 1 / (2 - 1))) 2
         ((4 : ℝ) * (4 / 2) ^ (2 : ℝ)) =
       eSeg 2 1 2 4 4 2 2 2
         (1 + (4 : ℝ) * (1 / 2) ^ (2 : ℝ) / 1 * (1 / (2 - 1) - 1 / (2 - 1)) +
           4 / 2 * (1 / (2 - 1) - 1 / (2 - 1)) +
           (4 : ℝ) * (4 / 2) ^ (2 : ℝ) / 4 * (1 / (2 - 1) - 1 / (2 - 1))) 2
         ((4 : ℝ) * (4 / 2) ^ (2 : ℝ))) :=
  poly_continuity 2 1 2 4 4 2 2 2 _ _ _ _ _
    ⟨by norm_num, by norm_num, by norm_num, by norm_num, by norm_num,
      by norm_num, by norm_num, by norm_num⟩
    rfl rfl rfl rfl rfl

/-- One unfolding of the integration loop on a nonempty trace. -/
theorem tovLoop_cons (s : IStep) (rest : List IStep) (rs : List ℝ)
    (ys : List (ℝ × ℝ)) :
    tovLoop (s :: rest) (rs, ys) =
      if s.p ≤ 0 then (rs ++ [s.t], ys ++ [(s.p, s.m)])
      else if s.ok then tovLoop rest (rs ++ [s.t], ys ++ [(s.p, s.m)])
      else (rs ++ [s.t], ys ++ [(s.p, s.m)]) := rfl

/-- Running the integration loop on a trace of positive-pressure successful
steps followed by a failed step appends exactly those steps and ignores the
rest of the trace. -/
theorem tovLoop_fail (f : IStep) (hf : f.ok = false) (hfp : 0 < f.p) :
    ∀ (pre : List IStep), (∀ s ∈ pre, s.ok = true ∧ 0 < s.p) →
    ∀ (rest : List IStep) (rs : List ℝ) (ys : List (ℝ × ℝ)),
      tovLoop (pre ++ f :: rest) (rs, ys) =
        (rs ++ (pre ++ [f]).map IStep.t,
          ys ++ (pre ++ [f]).map fun s => (s.p, s.m)) := by
  intro pre
  induction pre with
  | nil =>
    intro _ rest rs ys
    simp [tovLoop_cons, not_le.mpr hfp, hf]
  | cons s pre ih =>
    intro hpre rest rs ys
    have hs := hpre s (List.mem_cons_self s pre)
    have hrest : ∀ u ∈ pre, u.ok = true ∧ 0 < u.p := fun u hu =>
      hpre u (List.mem_cons_of_mem s hu)
    rw [List.cons_append, tovLoop_cons, if_neg (not_le.mpr hs.2), if_pos hs.1,
      ih hrest rest (rs ++ [s.t]) (ys ++ [(s.p, s.m)])]
    simp

/-- Any run of the integration loop only ever appends to the accumulated
paths. -/
theorem tovLoop_extends :
    ∀ (trace : List IStep) (rs : List ℝ) (ys : List (ℝ × ℝ)),
      ∃ ts ps, tovLoop trace (rs, ys) = (rs ++ ts, ys ++ ps)
  | [], rs, ys => ⟨[], [], by simp [tovLoop]⟩
  | s :: rest, rs, ys => by
    rw [tovLoop_cons]
    by_cases hp : s.p ≤ 0
    · exact ⟨[s.t], [(s.p, s.m)], by rw [if_pos hp]⟩
    · rw [if_neg hp]
      by_cases hok : s.ok = true
      · rw [if_pos hok]
        obtain ⟨ts, ps, h⟩ := tovLoop_extends rest (rs ++ [s.t]) (ys ++ [(s.p, s.m)])
        exact ⟨s.t :: ts, (s.p, s.m) :: ps, by rw [h]; simp⟩
      · rw [if_neg hok]
        exact ⟨[s.t], [(s.p, s.m)], rfl⟩

/-- Claim C6: when the adaptive solver reports a failed step before the
pressure has reached `<= 0`, the integration halts (the rest of the trace is
ignored) and returns exactly the partial profile accumulated so far; no
error is raised, and the premature termination is signalled to the caller:
the completion check prescribed by the design — did any recorded pressure
reach `<= 0`? — is false on the returned profile, every recorded pressure
being positive. -/
theorem solver_failure_partial_profile (p_central : ℝ) (pre : List IStep)
    (f : IStep) (rest : List IStep) (hpc : 0 < p_central)
    (hpre : ∀ s ∈ pre, s.ok = true ∧ 0 < s.p)
    (hf : f.ok = false) (hfp : 0 < f.p) :
    solve_tov_equations p_central (pre ++ f :: rest) =
      (0 :: (pre ++ [f]).map IStep.t,
        (p_central, 0) :: (pre ++ [f]).map fun s => (s.p, s.m)) ∧
    ∀ y ∈ (solve_tov_equations p_central (pre ++ f :: rest)).2, 0 < y.1 := by
  have hmain : solve_tov_equations p_central (pre ++ f :: rest) =
      (0 :: (pre ++ [f]).map IStep.t,
        (p_central, 0) :: (pre ++ [f]).map fun s => (s.p, s.m)) := by
    rw [solve_tov_equations, tovLoop_fail f hf hfp pre hpre rest]
    simp
  refine ⟨hmain, ?_⟩
  rw [hmain]
  rintro y hy
  rcases List.mem_cons.mp hy with h | h
  · rw [h]; exact hpc
  · obtain ⟨s, hs, rfl⟩ := List.mem_map.mp h
    rcases List.mem_append.mp hs with h' | h'
    · exact (hpre s h').2
    · rcases List.mem_singleton.mp h' with rfl
      exact hfp

/-- Witness for C6: a single failed step at positive pressure. -/
theorem solver_failure_partial_profile_witness :
    solve_tov_equations 1 [⟨2, 5, 3, false⟩] = ([0, 2], [(1, 0), (5, 3)]) ∧
    ∀ y ∈ (solve_tov_equations 1 [⟨2, 5, 3, false⟩]).2, 0 < y.1 :=
  solver_failure_partial_profile 1 [] ⟨2, 5, 3, false⟩ [] (by norm_num)
    (by simp) rfl (by norm_num)

/-- Counterexample to C7 as stated: with `p_central = -1` the code does not
fail fast — no error is signalled and an integration step is consumed and
recorded before the loop stops, the returned radius path having two entries
rather than stopping before any step. -/
theorem no_central_pressure_check_counterexample :
    solve_tov_equations (-1) [⟨0.1, -2, 0, true⟩] =
      ([0, 0.1], [(-1, 0), (-2, 0)]) ∧
    (solve_tov_equations (-1) [⟨0.1, -2, 0, true⟩]).1.length = 2 := by
  have h : solve_tov_equations (-1) [⟨0.1, -2, 0, true⟩] =
      ([0, 0.1], [(-1, 0), (-2, 0)]) := by
    rw [solve_tov_equations, tovLoop_cons, if_pos (show (-2 : ℝ) ≤ 0 by norm_num)]
    simp
  exact ⟨h, by rw [h]; rfl⟩

/-- Claim C7 amended: `solve_tov_equations` performs no validation of
`p_central` at all; for `p_central <= 0` no failure is signalled, and on any
nonempty solver trace the first integration step is still taken and recorded
(the returned paths start with the initial state followed by that step). -/
theorem no_central_pressure_check (p_central : ℝ) (hpc : p_central ≤ 0)
    (s : IStep) (rest : List IStep) :
    ∃ ts ps, solve_tov_equations p_central (s :: rest) =
      (0 :: s.t :: ts, (p_central, 0) :: (s.p, s.m) :: ps) := by
  rw [solve_tov_equations, tovLoop_cons]
  by_cases hp : s.p ≤ 0
  · exact ⟨[], [], by rw [if_pos hp]; simp⟩
  · rw [if_neg hp]
    by_cases hok : s.ok = true
    · rw [if_pos hok]
      obtain ⟨ts, ps, h⟩ := tovLoop_extends rest ([0] ++ [s.t]) ([(p_central, 0)] ++ [(s.p, s.m)])
      exact ⟨ts, ps, by rw [h]; simp⟩
    · exact ⟨[], [], by rw [if_neg hok]; simp⟩

/-- Witness for the amended C7 at `p_central = 0` with a one-step trace. -/
theorem no_central_pressure_check_witness :
    ∃ ts ps, solve_tov_equations 0 [⟨1, 4, 2, true⟩] =
      (0 :: 1 :: ts, ((0 : ℝ), (0 : ℝ)) :: ((4 : ℝ), (2 : ℝ)) :: ps) :=
  no_central_pressure_check 0 le_rfl ⟨1, 4, 2, true⟩ []

/-- One unfolding of the sweep loop when fuel remains. -/
theorem sampleLoop_succ (eos_p : ℝ → ℝ) (solve : ℝ → ℝ × ℝ)
    (mconv step stop : ℝ) (stopAtMax : Bool) (fuel : ℕ) (rho : ℝ)
    (acc : List (ℝ × ℝ × ℝ)) :
    sampleLoop eos_p solve mconv step stop stopAtMax (fuel + 1) rho acc =
      if rho < stop then
        if stopAtMax ∧ 0 < acc.length ∧
            (solve (eos_p rho)).2 * mconv < (acc.getLastD (0, 0, 0)).2.1 then
          acc
        else
          sampleLoop eos_p solve mconv step stop stopAtMax fuel
            (rho + rho * step)
            (acc ++ [(rho, (solve (eos_p rho)).2 * mconv, (solve (eos_p rho)).1)])
      else acc := rfl

/-- Appending a row whose mass is at least the current last mass (or
appending to an empty table) preserves the final-pair monotonicity. -/
theorem lastPairMono_append (acc : List (ℝ × ℝ × ℝ)) (x : ℝ × ℝ × ℝ)
    (h : acc = [] ∨ (acc.getLastD (0, 0, 0)).2.1 ≤ x.2.1) :
    lastPairMono (acc ++ [x]) := by
  rcases acc.eq_nil_or_concat' with rfl | ⟨cs, c, rfl⟩
  · simp [lastPairMono]
  · rcases h with h | h
    · exact absurd h (by simp)
    · rw [List.getLastD_concat] at h
      have hrev : ((cs ++ [c]) ++ [x]).reverse = x :: c :: cs.reverse := by simp
      rw [lastPairMono, hrev]
      exact h

/-- With the early-stop policy enabled, every table the sweep loop returns
from a final-pair-monotone accumulator is final-pair monotone. -/
theorem sampleLoop_lastPairMono (eos_p : ℝ → ℝ) (solve : ℝ → ℝ × ℝ)
    (mconv step stop : ℝ) :
    ∀ (fuel : ℕ) (rho : ℝ) (acc : List (ℝ × ℝ × ℝ)), lastPairMono acc →
      lastPairMono (sampleLoop eos_p solve mconv step stop true fuel rho acc) := by
  intro fuel
  induction fuel with
  | zero => intro rho acc hacc; exact hacc
  | succ fuel ih =>
    intro rho acc hacc
    rw [sampleLoop_succ]
    by_cases hlt : rho < stop
    · rw [if_pos hlt]
      by_cases hbr : (true = true) ∧ 0 < acc.length ∧
          (solve (eos_p rho)).2 * mconv < (acc.getLastD (0, 0, 0)).2.1
      · rw [if_pos hbr]; exact hacc
      · rw [if_neg hbr]
        refine ih _ _ (lastPairMono_append _ _ ?_)
        rcases List.eq_nil_or_concat' acc with rfl | ⟨cs, c, rfl⟩
        · exact Or.inl rfl
        · refine Or.inr (not_lt.mp fun hmass => hbr ⟨rfl, by simp, hmass⟩)
    · rw [if_neg hlt]; exact hacc

/-- Claim C4: with `stop_at_maximum_mass` enabled, whenever the table already
has a row and the newly integrated mass is strictly below the last recorded
mass, the sweep returns the table unchanged (it stops before appending the
post-maximum point); consequently in every curve the sweep returns, the last
recorded mass is never less than the second-to-last recorded mass. -/
theorem sample_stop_at_maximum (eos_p : ℝ → ℝ) (solve : ℝ → ℝ × ℝ)
    (mconv step stop : ℝ) :
    (∀ (fuel : ℕ) (rho : ℝ) (acc : List (ℝ × ℝ × ℝ)), rho < stop →
      0 < acc.length →
      (solve (eos_p rho)).2 * mconv < (acc.getLastD (0, 0, 0)).2.1 →
      sampleLoop eos_p solve mconv step stop true (fuel + 1) rho acc = acc) ∧
    (∀ (fuel : ℕ) (rho_start : ℝ),
      lastPairMono
        (sample_eos_mass_radius eos_p solve mconv rho_start step stop true fuel)) := by
  constructor
  · intro fuel rho acc hlt hlen hmass
    rw [sampleLoop_succ, if_pos hlt, if_pos ⟨rfl, hlen, hmass⟩]
  · intro fuel rho_start
    exact sampleLoop_lastPairMono eos_p solve mconv step stop fuel rho_start []
      (by simp [lastPairMono])

/-- Witness for C4: the early stop fires on a one-row table whose recorded
mass exceeds the newly integrated one. -/
theorem sample_stop_at_maximum_witness :
    sampleLoop (fun _ => 0) (fun _ => (0, 0)) 0 0 1 true 1 0 [(1, 1, 1)] =
      [(1, 1, 1)] :=
  (sample_stop_at_maximum (fun _ => 0) (fun _ => (0, 0)) 0 0 1).1 0 0
    [(1, 1, 1)] (by norm_num) (by norm_num)
    (by norm_num [List.getLastD])

/-- Claim C8: when `rho_central_stop <= rho_central_start` the sweep performs
zero iterations and returns the empty curve, with no error. -/
theorem sample_empty_when_stop_le_start (eos_p : ℝ → ℝ) (solve : ℝ → ℝ × ℝ)
    (mconv rho_central_start rho_central_log_step rho_central_stop : ℝ)
    (stop_at_maximum_mass : Bool) (fuel : ℕ)
    (h : rho_central_stop ≤ rho_central_start) :
    sample_eos_mass_radius eos_p solve mconv rho_central_start
      rho_central_log_step rho_central_stop stop_at_maximum_mass fuel = [] := by
  cases fuel with
  | zero => rfl
  | succ fuel =>
    rw [sample_eos_mass_radius, sampleLoop_succ, if_neg (not_lt.mpr h)]

/-- Witness for C8 at `start = 2`, `stop = 1`. -/
theorem sample_empty_when_stop_le_start_witness :
    sample_eos_mass_radius (fun x => x) (fun p => (p, p)) 1 2 (1 / 2) 1 true 7 = [] :=
  sample_empty_when_stop_le_start (fun x => x) (fun p => (p, p)) 1 2 (1 / 2) 1
    true 7 (by norm_num)

/-- Closed form of the central-density sequence:
`rhoIter start step n = start * (1 + step) ^ n`. -/
theorem rhoIter_closed (start step : ℝ) :
    ∀ n, rhoIter start step n = start * (1 + step) ^ n := by
  intro n
  induction n with
  | zero => simp [rhoIter]
  | succ n ih => rw [rhoIter, ih, pow_succ]; ring

/-- Advancing the central-density sequence by one step from `start` is the
sequence started at the updated density. -/
theorem rhoIter_shift (start step : ℝ) :
    ∀ n, rhoIter start step (n + 1) = rhoIter (start + start * step) step n := by
  intro n
  induction n with
  | zero => rfl
  | succ n ih => rw [rhoIter, ih, rhoIter]

/-- Once the central-density sequence has met the stopping bound, giving the
sweep loop any more fuel than that hitting index cannot change its result:
the fueled loop has genuinely terminated. -/
theorem sampleLoop_stable (eos_p : ℝ → ℝ) (solve : ℝ → ℝ × ℝ)
    (mconv step stop : ℝ) (sm : Bool) :
    ∀ (n : ℕ) (rho : ℝ) (acc : List (ℝ × ℝ × ℝ)),
      ¬ rhoIter rho step n < stop →
      ∀ fuel, n ≤ fuel →
        sampleLoop eos_p solve mconv step stop sm fuel rho acc =
          sampleLoop eos_p solve mconv step stop sm n rho acc := by
  intro n
  induction n with
  | zero =>
    intro rho acc h fuel _
    have hstop : ¬ rho < stop := h
    cases fuel with
    | zero => rfl
    | succ fuel => rw [sampleLoop_succ, if_neg hstop]; rfl
  | succ n ih =>
    intro rho acc h fuel hfuel
    cases fuel with
    | zero => omega
    | succ fuel =>
      have hf : n ≤ fuel := Nat.succ_le_succ_iff.mp hfuel
      rw [sampleLoop_succ, sampleLoop_succ]
      by_cases hlt : rho < stop
      · rw [if_pos hlt, if_pos hlt]
        by_cases hbr : (sm = true) ∧ 0 < acc.length ∧
            (solve (eos_p rho)).2 * mconv < (acc.getLastD (0, 0, 0)).2.1
        · rw [if_pos hbr, if_pos hbr]
        · rw [if_neg hbr, if_neg hbr]
          rw [rhoIter_shift] at h
          exact ih (rho + rho * step) _ h fuel hf
      · rw [if_neg hlt, if_neg hlt]

/-- Counterexample to C10 as stated: with `rho_central_log_step = -3 <= 0`
and `rho_central_start = 1 < 10 = rho_central_stop`, the loop condition does
not stay true forever — the sequence oscillates with growing magnitude and
reaches `16 >= 10` after four iterations. -/
theorem sample_sweep_termination_counterexample :
    (-3 : ℝ) ≤ 0 ∧ (1 : ℝ) < 10 ∧ ¬ ∀ n, rhoIter 1 (-3) n < 10 := by
  refine ⟨by norm_num, by norm_num, fun h => ?_⟩
  have h4 := h 4
  rw [rhoIter_closed] at h4
  norm_num at h4

/-- Claim C10 amended: for `rho_central_start > 0` and
`rho_central_log_step > 0` the sweep loop terminates after finitely many
iterations — there is a hitting index `n` at which the loop condition fails,
and supplying the fueled loop with any fuel beyond `n` cannot change its
result; and when `-2 <= rho_central_log_step <= 0` and
`0 <= rho_central_start < rho_central_stop` the loop condition
`rho_central < rho_central_stop` never becomes false, the multiplier
`1 + rho_central_log_step` then having absolute value at most 1 so that the
sequence stays within `[-rho_central_start, rho_central_start]`.  (The
original claim asserted the second part for every
`rho_central_log_step <= 0`, which fails exactly for steps below `-2`.) -/
theorem sample_sweep_termination (start step stop : ℝ) :
    (0 < start → 0 < step →
      ∃ n : ℕ, stop ≤ rhoIter start step n ∧
        ∀ (eos_p : ℝ → ℝ) (solve : ℝ → ℝ × ℝ) (mconv : ℝ) (sm : Bool)
          (acc : List (ℝ × ℝ × ℝ)) (fuel : ℕ), n ≤ fuel →
          sampleLoop eos_p solve mconv step stop sm fuel start acc =
            sampleLoop eos_p solve mconv step stop sm n start acc) ∧
    (-2 ≤ step → step ≤ 0 → 0 ≤ start → start < stop →
      ∀ n, rhoIter start step n < stop) := by
  constructor
  · intro hstart hstep
    obtain ⟨n, hn⟩ := pow_unbounded_of_one_lt (stop / start)
      (by linarith : (1 : ℝ) < 1 + step)
    refine ⟨n, ?_, ?_⟩
    · rw [rhoIter_closed]
      have := (div_lt_iff₀ hstart).mp hn
      linarith [this]
    · intro eos_p solve mconv sm acc fuel hfuel
      refine sampleLoop_stable eos_p solve mconv step stop sm n start acc ?_ fuel hfuel
      rw [rhoIter_closed, not_lt]
      have := (div_lt_iff₀ hstart).mp hn
      linarith [this]
  · intro h1 h2 h3 h4 n
    have habs : |1 + step| ≤ 1 := abs_le.mpr ⟨by linarith, by linarith⟩
    have key : ∀ m, |rhoIter start step m| ≤ start := by
      intro m
      induction m with
      | zero => rw [rhoIter, abs_of_nonneg h3]
      | succ m ih =>
        have hstep : rhoIter start step (m + 1) =
            rhoIter start step m * (1 + step) := by
          rw [rhoIter]; ring
        calc |rhoIter start step (m + 1)|
            = |rhoIter start step m| * |1 + step| := by rw [hstep, abs_mul]
          _ ≤ |rhoIter start step m| :=
              mul_le_of_le_one_right (abs_nonneg _) habs
          _ ≤ start := ih
    exact lt_of_le_of_lt (le_trans (le_abs_self _) (key n)) h4

/-- Witness for the amended C10 at `start = 1`, `step = 1`, `stop = 10`. -/
theorem sample_sweep_termination_witness :
    ∃ n : ℕ, (10 : ℝ) ≤ rhoIter 1 1 n ∧
      ∀ (eos_p : ℝ → ℝ) (solve : ℝ → ℝ × ℝ) (mconv : ℝ) (sm : Bool)
        (acc : List (ℝ × ℝ × ℝ)) (fuel : ℕ), n ≤ fuel →
        sampleLoop eos_p solve mconv 1 10 sm fuel 1 acc =
          sampleLoop eos_p solve mconv 1 10 sm n 1 acc :=
  (sample_sweep_termination 1 1 10).1 (by norm_num) (by norm_num)

/-- Claim C1: for every state with `r > 0` the TOV system returns
`dp/dr = -(rho + p)*(m + 4*pi*r^3*p) / (r*(r - 2m))` with
`rho = eos_rho(p)` together with `dm/dr = 4*pi*r^2*rho`, and for every
state with `r <= 0` the pressure derivative is exactly `0`. -/
theorem tov_equations_values (r p m : ℝ) (eos_rho : ℝ → ℝ) :
    (0 < r →
      tov_equations r (p, m) eos_rho =
        (-(eos_rho p + p) * (m + 4 * Real.pi * r ^ 3 * p) / (r * (r - 2 * m)),
          4 * Real.pi * r ^ 2 * eos_rho p)) ∧
    (r ≤ 0 → (tov_equations r (p, m) eos_rho).1 = 0) := by
  constructor
  · intro hr
    simp only [tov_equations, dp_dr, dm_dr, if_neg (not_le.mpr hr)]
    rw [div_div]
  · intro hr
    simp [tov_equations, dp_dr, if_pos hr]

/-- Witness for C1 at the concrete state `r = 1`, `p = 2`, `m = 3` with the
constant EOS `rho = 5`. -/
theorem tov_equations_values_witness :
    tov_equations 1 (2, 3) (fun _ => 5) =
      (-(5 + 2) * (3 + 4 * Real.pi * 1 ^ 3 * 2) / (1 * (1 - 2 * 3)),
        4 * Real.pi * 1 ^ 2 * 5) :=
  (tov_equations_values 1 2 3 (fun _ => 5)).1 (by norm_num)

/-- Claim C5: the Simple Polytrope EOS satisfies
`pressure_of_rest_density(x) = p_nuclear*(x/rho_nuclear)^3`,
`rest_density_of_pressure(p) = rho_nuclear*(p/p_nuclear)^(1/3)` and
`energy_density_of_pressure(p) = rest_density_of_pressure(p) + p/2`
for all `x >= 0`, `p >= 0`. -/
theorem eos_simple_laws (rhoN pN x p : ℝ) (hx : 0 ≤ x) (hp : 0 ≤ p) :
    eos_p_simple rhoN pN x = pN * (x / rhoN) ^ 3 ∧
    eos_rho_rest_simple rhoN pN p = rhoN * (p / pN) ^ ((1 : ℝ) / 3) ∧
    eos_rho_simple rhoN pN p = eos_rho_rest_simple rhoN pN p + p / 2 := by
  refine ⟨?_, ?_, rfl⟩
  · rw [eos_p_simple, mul_comm]
  · rw [eos_rho_rest_simple, mul_comm]

/-- Witness for C5 at `rhoN = 1`, `pN = 1`, `x = 2`, `p = 3`. -/
theorem eos_simple_laws_witness :
    eos_p_simple 1 1 2 = 1 * (2 / 1) ^ 3 ∧
    eos_rho_rest_simple 1 1 3 = 1 * (3 / 1) ^ ((1 : ℝ) / 3) ∧
    eos_rho_simple 1 1 3 = eos_rho_rest_simple 1 1 3 + 3 / 2 :=
  eos_simple_laws 1 1 2 3 (by norm_num) (by norm_num)

/-- Claim C9: for `r > 0` the pressure derivative always takes the unguarded
division branch `-(rho+p)*(m+4*pi*r^3*p) / (r*(r-2m))` (only `r <= 0` is
special-cased), and its divisor `r*(r - 2m)` is nonzero exactly when
`r` differs from the Schwarzschild value `2m`. -/
theorem dp_dr_division_guard (r p m rho : ℝ) (hr : 0 < r) :
    dp_dr r p m rho = -(rho + p) * (m + 4 * Real.pi * r ^ 3 * p) / (r * (r - 2 * m)) ∧
    (r ≠ 2 * m → r * (r - 2 * m) ≠ 0) ∧
    (r = 2 * m → r * (r - 2 * m) = 0) := by
  refine ⟨?_, ?_, ?_⟩
  · rw [dp_dr, if_neg (not_le.mpr hr), div_div]
  · intro hne
    exact mul_ne_zero (ne_of_gt hr) (sub_ne_zero.mpr fun h => hne h)
  · intro he
    rw [← he, sub_self, mul_zero]

/-- Witness for C9 at `r = 1`, `p = 2`, `m = 3`, `rho = 5`. -/
theorem dp_dr_division_guard_witness :
    dp_dr 1 2 3 5 = -(5 + 2) * (3 + 4 * Real.pi * 1 ^ 3 * 2) / (1 * (1 - 2 * 3)) ∧
    ((1 : ℝ) ≠ 2 * 3 → (1 : ℝ) * (1 - 2 * 3) ≠ 0) ∧
    ((1 : ℝ) = 2 * 3 → (1 : ℝ) * (1 - 2 * 3) = 0) :=
  dp_dr_division_guard 1 2 3 5 (by norm_num)
